import Mathlib

/-!
Verification development for the article extraction / deduplication pipeline
of a literature-search service.  The TypeScript source is shallowly embedded:
strings become `List Char`, the per-record loop of `deduplicateArticles`
becomes a fold over an explicit state, and the regex-based field scraping of
`parseArticles` becomes executable scanning functions over character lists.
-/

namespace ResearchHub

/-- Strings are modelled as lists of characters. -/
abbrev Str := List Char

/-- JS `\w`: ASCII letters, ASCII digits and underscore. -/
def isWordChar (c : Char) : Bool := c.isAlpha || c.isDigit || c = '_'

/-- JS `\s` as used by the source patterns: space, tab, newline, carriage
return, vertical tab, form feed. -/
def isJsSpace (c : Char) : Bool := c.isWhitespace || c = '\x0b' || c = '\x0c'

/-- One pass of `.replace(/\s+/g, ' ')`: every maximal run of whitespace
collapses to a single space. -/
def collapseWs : Str → Str
  | [] => []
  | [c] => [if isJsSpace c then ' ' else c]
  | c1 :: c2 :: rest =>
    if isJsSpace c1 && isJsSpace c2 then collapseWs (c2 :: rest)
    else (if isJsSpace c1 then ' ' else c1) :: collapseWs (c2 :: rest)

/-- `.trim()` applied after whitespace collapsing: the only whitespace left is
the plain space character. -/
def trimSpaces (l : Str) : Str :=
  ((l.dropWhile (fun c => c = ' ')).reverse.dropWhile (fun c => c = ' ')).reverse

/-- `normalizeString` (source lines 134-140): lower-case, delete every
character outside `\w` and `\s`, collapse whitespace runs to one space,
trim. -/
def normalizeString (s : Str) : Str :=
  trimSpaces (collapseWs ((s.map Char.toLower).filter
    (fun c => isWordChar c || isJsSpace c)))

/-- JS `String.prototype.trim`, used on the raw DOI. -/
def jsTrim (s : Str) : Str :=
  ((s.dropWhile isJsSpace).reverse.dropWhile isJsSpace).reverse

/-- Helper for `levenshteinDistance`: the distance of `x :: xs` against a
second string, given the distance function `d` of `xs`.  This is the cell
recurrence of the dynamic program at source lines 219-231 (the matrix there
is its memoisation): equal head characters take the diagonal value, otherwise
one plus the minimum of the diagonal, left and upper neighbours. -/
def levCons (x : Char) (d : Str → Nat) : Str → Nat
  | [] => d [] + 1
  | y :: ys => if x = y then d ys
      else 1 + min (d ys) (min (levCons x d ys) (d (y :: ys)))

/-- `levenshteinDistance` (source lines 208-234): unit-cost edit distance. -/
def levenshteinDistance : Str → Str → Nat
  | [], str2 => str2.length
  | x :: xs, str2 => levCons x (levenshteinDistance xs) str2

/-- `calculateSimilarity` (source lines 198-206).  JS numbers are modelled by
exact rationals: `(longer.length - editDistance) / longer.length` is written
with `mkRat` so that it evaluates inside the kernel (Rat division is marked
irreducible); `calculateSimilarity_eq_div` recovers the literal formula.  For
the string lengths involved, the IEEE double comparison performed by the
source agrees with the exact rational comparison, since IEEE division is
correctly rounded and rounding is monotone. -/
def calculateSimilarity (str1 str2 : Str) : ℚ :=
  let longer := if str1.length > str2.length then str1 else str2
  let shorter := if str1.length > str2.length then str2 else str1
  if longer.length = 0 then 1
  else mkRat ((longer.length : Int) - (levenshteinDistance longer shorter : Int))
    longer.length

/-- The similarity value is the formula of source line 205. -/
theorem calculateSimilarity_eq_div (str1 str2 : Str)
    (longer : Str) (hl : longer = if str1.length > str2.length then str1 else str2)
    (shorter : Str) (hs : shorter = if str1.length > str2.length then str2 else str1)
    (h : longer.length ≠ 0) :
    calculateSimilarity str1 str2 =
      ((longer.length : ℚ) - (levenshteinDistance longer shorter : ℚ)) /
        (longer.length : ℚ) := by
  subst hl hs
  simp only [calculateSimilarity, if_neg h, Rat.mkRat_eq_div]
  push_cast
  ring

/-- The 0.85 similarity threshold of source line 182, written as a
kernel-evaluable rational. -/
def similarityThreshold : ℚ := mkRat 17 20

theorem similarityThreshold_eq : similarityThreshold = 0.85 := by
  have : (0.85 : ℚ) = 17 / 20 := by norm_num
  rw [similarityThreshold, this, Rat.mkRat_eq_div]
  norm_num

/-- A parsed bibliographic record: the object literal built by `parseArticles`
at source lines 116-125 and consumed by `deduplicateArticles`. -/
structure Article where
  pmid : Str
  title : Str
  authors : List Str
  journal : Str
  pubDate : Str
  abstract : Str
  doi : Option Str
  year : Option Str
deriving DecidableEq, Repr

/-- A JS `Map` with string keys, kept as an association list in key-insertion
order (JS `Map` iteration order). -/
abbrev StrMap := List (Str × Article)

/-- `Map.has`. -/
def mapHas (m : StrMap) (k : Str) : Bool := m.any (fun p => p.1 == k)

/-- `Map.set`: replace the value in place when the key is present (the key
keeps its insertion position), append otherwise. -/
def mapSet (m : StrMap) (k : Str) (v : Article) : StrMap :=
  if mapHas m k then m.map (fun p => if p.1 == k then (k, v) else p)
  else m ++ [(k, v)]

/-- `article.doi && article.doi.trim() !== ''` (source line 148): the record
has a usable DOI.  A `null` DOI and an empty or all-whitespace DOI string all
fail this test. -/
def usableDoi (a : Article) : Bool :=
  match a.doi with
  | none => false
  | some d => jsTrim d != []

/-- The normalized DOI of source line 149. -/
def normDoi (a : Article) : Str := normalizeString (a.doi.getD [])

/-- Normalized title (source line 159). -/
def normTitle (a : Article) : Str := normalizeString a.title

/-- Normalized first author, `''` when the author list is empty
(source lines 160-162). -/
def firstAuthorOf (a : Article) : Str :=
  match a.authors with
  | [] => []
  | au :: _ => normalizeString au

/-- `article.year || ''` (source line 163). -/
def yearOf (a : Article) : Str := a.year.getD []

/-- The Tier-2 composite key `${normalizedTitle}|${firstAuthor}|${year}`
(source line 166). -/
def compositeKey (a : Article) : Str :=
  normTitle a ++ '|' :: (firstAuthorOf a ++ '|' :: yearOf a)

/-- JS `key.split('|')`. -/
def splitOnBar : Str → List Str
  | [] => [[]]
  | c :: rest =>
    match splitOnBar rest with
    | [] => [[c]]
    | h :: t => if c = '|' then [] :: h :: t else (c :: h) :: t

/-- The loop-body condition of the fuzzy scan (source lines 176-186): the
stored key contains `'|'`, its second and third `split('|')` components agree
with the current record's first author and year, and the similarity of the
current normalized title with the key's first component exceeds the
threshold.  A destructured component beyond the end of the split list is JS
`undefined` and compares unequal to every string, hence the `Option`-valued
comparisons. -/
def entryMatches (key normalizedTitle firstAuthor year : Str) : Bool :=
  key.contains '|' &&
    (decide ((splitOnBar key).get? 1 = some firstAuthor) &&
     decide ((splitOnBar key).get? 2 = some year) &&
     decide (similarityThreshold <
       calculateSimilarity normalizedTitle ((splitOnBar key).headD [])))

/-- The fuzzy scan over all accepted entries (source lines 174-188). -/
def isDuplicateOf (m : StrMap) (normalizedTitle firstAuthor year : Str) : Bool :=
  m.any (fun p => entryMatches p.1 normalizedTitle firstAuthor year)

/-- The two lookup structures of `deduplicateArticles` (source lines
143-144): the set of normalized DOIs already accepted and the insertion-order
map from key (pmid for DOI-bearing records, composite key otherwise) to the
retained record. -/
structure DedupState where
  doiMap : List Str
  uniqueMap : StrMap

/-- The body of the `for` loop of `deduplicateArticles` (source lines
146-193). -/
def dedupStep (st : DedupState) (article : Article) : DedupState :=
  if usableDoi article then
    let normalizedDoi := normDoi article
    if st.doiMap.contains normalizedDoi then st
    else { doiMap := normalizedDoi :: st.doiMap,
           uniqueMap := mapSet st.uniqueMap article.pmid article }
  else
    let key := compositeKey article
    if mapHas st.uniqueMap key then st
    else if isDuplicateOf st.uniqueMap (normTitle article) (firstAuthorOf article)
      (yearOf article) then st
    else { st with uniqueMap := mapSet st.uniqueMap key article }

/-- `deduplicateArticles` (source lines 142-196): fold the loop body over the
input and return `Array.from(uniqueMap.values())`, the retained records in
key-insertion order. -/
def deduplicateArticles (articles : List Article) : List Article :=
  (articles.foldl dedupStep ⟨[], []⟩).uniqueMap.map Prod.snd

/-! ### Levenshtein distance: basic equations and algebraic properties -/

@[simp] theorem levenshteinDistance_nil_left (ys : Str) :
    levenshteinDistance [] ys = ys.length := rfl

@[simp] theorem levenshteinDistance_nil_right (xs : Str) :
    levenshteinDistance xs [] = xs.length := by
  induction xs with
  | nil => rfl
  | cons x xs ih =>
    show levCons x (levenshteinDistance xs) [] = _
    rw [levCons, ih]
    rfl

theorem levenshteinDistance_cons_cons (x y : Char) (xs ys : Str) :
    levenshteinDistance (x :: xs) (y :: ys) =
      if x = y then levenshteinDistance xs ys
      else 1 + min (levenshteinDistance xs ys)
        (min (levenshteinDistance (x :: xs) ys)
          (levenshteinDistance xs (y :: ys))) := rfl

theorem levenshteinDistance_comm (a b : Str) :
    levenshteinDistance a b = levenshteinDistance b a := by
  induction a generalizing b with
  | nil => simp
  | cons x xs iha =>
    induction b with
    | nil => simp
    | cons y ys ihb =>
      rw [levenshteinDistance_cons_cons, levenshteinDistance_cons_cons]
      by_cases h : x = y
      · rw [if_pos h, if_pos h.symm, iha]
      · rw [if_neg h, if_neg (fun hyx => h hyx.symm), iha ys, iha (y :: ys), ihb]
        omega

@[simp] theorem levenshteinDistance_self (a : Str) :
    levenshteinDistance a a = 0 := by
  induction a with
  | nil => rfl
  | cons x xs ih => rw [levenshteinDistance_cons_cons, if_pos rfl, ih]

theorem levenshteinDistance_eq_zero_iff (a b : Str) :
    levenshteinDistance a b = 0 ↔ a = b := by
  induction a generalizing b with
  | nil =>
    cases b with
    | nil => simp
    | cons y ys => simp
  | cons x xs ih =>
    cases b with
    | nil => simp
    | cons y ys =>
      rw [levenshteinDistance_cons_cons]
      by_cases h : x = y
      · subst h
        rw [if_pos rfl]
        simpa using ih ys
      · rw [if_neg h]
        constructor
        · omega
        · intro he
          exact absurd (List.cons.injEq .. ▸ he).1 h

/-! ### Normalization: every output character is a lower-case letter, a
digit, an underscore or a single internal space -/

/-- The characters that can survive normalization besides the space:
lower-case ASCII letters, ASCII digits and the underscore (the underscore is
in `\w`, so `normalizeString` keeps it). -/
def goodChar (c : Char) : Bool := c.isLower || c.isDigit || c = '_'

theorem char_isUpper_iff (c : Char) :
    c.isUpper = true ↔ 65 ≤ c.toNat ∧ c.toNat ≤ 90 := by
  simp [Char.isUpper, UInt32.le_def, BitVec.le_def, Char.toNat, UInt32.toNat]

theorem char_isLower_iff (c : Char) :
    c.isLower = true ↔ 97 ≤ c.toNat ∧ c.toNat ≤ 122 := by
  simp [Char.isLower, UInt32.le_def, BitVec.le_def, Char.toNat, UInt32.toNat]

theorem char_toNat_ofNat {n : Nat} (h : n.isValidChar) :
    (Char.ofNat n).toNat = n := by
  rw [Char.ofNat, dif_pos h]
  rfl

theorem toLower_toNat (c : Char) :
    (Char.toLower c).toNat =
      if 65 ≤ c.toNat ∧ c.toNat ≤ 90 then c.toNat + 32 else c.toNat := by
  show (if c.toNat ≥ 65 ∧ c.toNat ≤ 90 then Char.ofNat (c.toNat + 32) else c).toNat = _
  by_cases h : 65 ≤ c.toNat ∧ c.toNat ≤ 90
  · rw [if_pos h, if_pos h, char_toNat_ofNat (Or.inl (by omega))]
  · rw [if_neg h, if_neg h]

theorem toLower_isUpper_false (c : Char) : (Char.toLower c).isUpper = false := by
  by_contra h
  have hu : (Char.toLower c).isUpper = true := by
    revert h
    cases (Char.toLower c).isUpper <;> simp
  have := (char_isUpper_iff _).mp hu
  have := toLower_toNat c
  by_cases hc : 65 ≤ c.toNat ∧ c.toNat ≤ 90 <;> simp [hc] at this <;> omega

theorem goodChar_of_wordChar_toLower {c x : Char} (hx : x = Char.toLower c)
    (h : isWordChar x = true) : goodChar x = true := by
  have hu : x.isUpper = false := hx ▸ toLower_isUpper_false c
  simp only [isWordChar, Char.isAlpha, hu, Bool.false_or, Bool.or_eq_true] at h
  simp only [goodChar, Bool.or_eq_true]
  tauto

theorem collapseWs_cons (c : Char) (rest : Str) :
    ∃ t, collapseWs (c :: rest) = (if isJsSpace c then ' ' else c) :: t := by
  induction rest generalizing c with
  | nil => exact ⟨[], rfl⟩
  | cons c2 r ih =>
    rw [collapseWs]
    by_cases h : isJsSpace c && isJsSpace c2
    · rw [if_pos h]
      obtain ⟨t, ht⟩ := ih c2
      refine ⟨t, ht.trans ?_⟩
      have h1 : isJsSpace c = true := (Bool.and_eq_true ..▸ h).1
      have h2 : isJsSpace c2 = true := (Bool.and_eq_true ..▸ h).2
      rw [h1, h2]
      simp
    · rw [if_neg h]
      exact ⟨_, rfl⟩

theorem mem_collapseWs {x : Char} {l : Str} (h : x ∈ collapseWs l) :
    x = ' ' ∨ (x ∈ l ∧ isJsSpace x = false) := by
  induction l with
  | nil => simp [collapseWs] at h
  | cons c rest ih =>
    cases rest with
    | nil =>
      rw [collapseWs] at h
      rcases List.mem_singleton.mp h with h1
      by_cases hs : isJsSpace c
      · left
        rw [h1, if_pos hs]
      · right
        rw [h1, if_neg hs]
        refine ⟨List.mem_cons_self .., ?_⟩
        rw [if_neg hs] at h1
        subst h1
        exact Bool.not_eq_true _ ▸ hs
    | cons c2 r =>
      rw [collapseWs] at h
      by_cases hb : isJsSpace c && isJsSpace c2
      · rw [if_pos hb] at h
        rcases ih h with h1 | ⟨h2, h3⟩
        · exact Or.inl h1
        · exact Or.inr ⟨List.mem_cons_of_mem _ h2, h3⟩
      · rw [if_neg hb] at h
        rcases List.mem_cons.mp h with h1 | h1
        · by_cases hs : isJsSpace c
          · left
            rw [h1, if_pos hs]
          · right
            rw [h1, if_neg hs]
            refine ⟨List.mem_cons_self .., ?_⟩
            rw [if_neg hs] at h1
            subst h1
            exact Bool.not_eq_true _ ▸ hs
        · rcases ih h1 with h2 | ⟨h3, h4⟩
          · exact Or.inl h2
          · exact Or.inr ⟨List.mem_cons_of_mem _ h3, h4⟩

/-- Whitespace collapsing never leaves two adjacent spaces. -/
theorem chain_collapseWs (l : Str) :
    (collapseWs l).Chain' (fun a b => a = ' ' → b ≠ ' ') := by
  induction l with
  | nil => simp [collapseWs]
  | cons c rest ih =>
    cases rest with
    | nil =>
      rw [collapseWs]
      exact List.chain'_singleton _
    | cons c2 r =>
      rw [collapseWs]
      by_cases hb : isJsSpace c && isJsSpace c2
      · rw [if_pos hb]
        exact ih
      · rw [if_neg hb]
        obtain ⟨t, ht⟩ := collapseWs_cons c2 r
        rw [ht]
        rw [ht] at ih
        refine List.chain'_cons.mpr ⟨?_, ih⟩
        intro h1 h2
        by_cases hs : isJsSpace c
        · have hs2 : ¬ isJsSpace c2 := by
            intro hs2
            exact hb (by rw [hs, hs2]; rfl)
          rw [if_neg hs2] at h2
          apply hs2
          rw [h2]
          rfl
        · rw [if_neg hs] at h1
          apply hs
          rw [h1]
          rfl

theorem head_dropWhile_false (p : Char → Bool) (l : Str) :
    ∀ x ∈ (l.dropWhile p).head?, p x = false := by
  induction l with
  | nil => simp
  | cons c rest ih =>
    rw [List.dropWhile_cons]
    by_cases h : p c
    · rw [if_pos h]
      exact ih
    · rw [if_neg h]
      intro x hx
      have hcx : c = x := by simpa using hx
      subst hcx
      exact Bool.not_eq_true _ ▸ h

theorem trimSpaces_infixOf (l : Str) : trimSpaces l <:+: l := by
  have h1 : l.dropWhile (fun c => c = ' ') <:+ l := List.dropWhile_suffix _
  have h2 : ((l.dropWhile (fun c => c = ' ')).reverse.dropWhile
      (fun c => c = ' ')).reverse <+: l.dropWhile (fun c => c = ' ') := by
    conv_rhs => rw [← List.reverse_reverse (l.dropWhile (fun c => c = ' '))]
    exact List.reverse_prefix.mpr (List.dropWhile_suffix _)
  obtain ⟨t, ht⟩ := h2
  obtain ⟨s, hs⟩ := h1
  refine ⟨s, t, ?_⟩
  show s ++ trimSpaces l ++ t = l
  rw [List.append_assoc]
  rw [show trimSpaces l ++ t = l.dropWhile (fun c => c = ' ') from ht, hs]

theorem mem_trimSpaces {x : Char} {l : Str} (h : x ∈ trimSpaces l) : x ∈ l :=
  (trimSpaces_infixOf l).subset h

theorem trimSpaces_getLast (l : Str) :
    ∀ x ∈ (trimSpaces l).getLast?, ¬ x = ' ' := by
  intro x hx
  unfold trimSpaces at hx
  rw [List.getLast?_reverse] at hx
  have := head_dropWhile_false (fun c => c = ' ')
    (l.dropWhile (fun c => c = ' ')).reverse x hx
  simpa using this

theorem trimSpaces_head (l : Str) :
    ∀ x ∈ (trimSpaces l).head?, ¬ x = ' ' := by
  intro x hx
  set D1 := l.dropWhile (fun c => c = ' ') with hD1
  set D2 := D1.reverse.dropWhile (fun c => c = ' ') with hD2
  have hpre : D2.reverse <+: D1 := by
    conv_rhs => rw [← List.reverse_reverse D1]
    exact List.reverse_prefix.mpr (List.dropWhile_suffix _)
  obtain ⟨t, ht⟩ := hpre
  have hne : D2.reverse ≠ [] := by
    intro hnil
    rw [show trimSpaces l = D2.reverse from rfl, hnil] at hx
    simp at hx
  have : D1.head? = (D2.reverse).head? := by
    rw [← ht, List.head?_append_of_ne_nil _ hne]
  have hx1 : x ∈ D1.head? := by
    rw [this]
    exact hx
  have := head_dropWhile_false (fun c => c = ' ') l x hx1
  simpa using this

theorem mem_normalizeString {x : Char} {s : Str} (h : x ∈ normalizeString s) :
    goodChar x = true ∨ x = ' ' := by
  unfold normalizeString at h
  have h1 := mem_trimSpaces h
  rcases mem_collapseWs h1 with h2 | ⟨h2, h3⟩
  · exact Or.inr h2
  · left
    rcases List.mem_filter.mp h2 with ⟨hmem, hpred⟩
    rcases List.mem_map.mp hmem with ⟨c, _, hc⟩
    rcases Bool.or_eq_true _ _ ▸ hpred with hw | hs
    · exact goodChar_of_wordChar_toLower hc.symm hw
    · rw [hs] at h3
      exact absurd h3 (by simp)

theorem normalizeString_chain (s : Str) :
    (normalizeString s).Chain' (fun a b => a = ' ' → b ≠ ' ') :=
  List.Chain'.infix (chain_collapseWs _) (trimSpaces_infixOf _)

theorem normalizeString_head (s : Str) :
    ∀ x ∈ (normalizeString s).head?, ¬ x = ' ' := trimSpaces_head _

theorem normalizeString_getLast (s : Str) :
    ∀ x ∈ (normalizeString s).getLast?, ¬ x = ' ' := trimSpaces_getLast _

/-- The bar never survives normalization, so the composite key splits cleanly
on bars. -/
theorem normalizeString_no_bar (s : Str) : ('|' : Char) ∉ normalizeString s := by
  intro h
  rcases mem_normalizeString h with h1 | h1
  · revert h1
    decide
  · revert h1
    decide

theorem calculateSimilarity_comm (a b : Str) :
    calculateSimilarity a b = calculateSimilarity b a := by
  rcases lt_trichotomy a.length b.length with h | h | h
  · have h1 : ¬ a.length > b.length := by omega
    have h2 : b.length > a.length := h
    simp only [calculateSimilarity, if_pos h2, if_neg h1]
  · have h1 : ¬ a.length > b.length := by omega
    have h2 : ¬ b.length > a.length := by omega
    simp only [calculateSimilarity, if_neg h1, if_neg h2, h, gt_iff_lt,
      lt_self_iff_false, if_false, levenshteinDistance_comm a b]
  · have h1 : a.length > b.length := h
    have h2 : ¬ b.length > a.length := by omega
    simp only [calculateSimilarity, if_pos h1, if_neg h2]

/-! ### Splitting composite keys on bars -/

theorem splitOnBar_ne_nil (s : Str) : splitOnBar s ≠ [] := by
  induction s with
  | nil => simp [splitOnBar]
  | cons c rest ih =>
    rw [splitOnBar]
    cases hs : splitOnBar rest with
    | nil => simp
    | cons x t => by_cases hc : c = '|' <;> simp [hc]

theorem splitOnBar_no_bar {s : Str} (h : ('|' : Char) ∉ s) :
    splitOnBar s = [s] := by
  induction s with
  | nil => rfl
  | cons c rest ih =>
    have hc : ¬ c = '|' := fun hc => h (hc ▸ List.mem_cons_self ..)
    have hr : ('|' : Char) ∉ rest := fun hr => h (List.mem_cons_of_mem _ hr)
    rw [splitOnBar, ih hr]
    simp [hc]

theorem splitOnBar_append {a b : Str} (h : ('|' : Char) ∉ a) :
    splitOnBar (a ++ '|' :: b) = a :: splitOnBar b := by
  induction a with
  | nil =>
    show splitOnBar ('|' :: b) = [] :: splitOnBar b
    rw [splitOnBar]
    cases hs : splitOnBar b with
    | nil => exact absurd hs (splitOnBar_ne_nil b)
    | cons x t => simp
  | cons c rest ih =>
    have hc : ¬ c = '|' := fun hc => h (hc ▸ List.mem_cons_self ..)
    have hr : ('|' : Char) ∉ rest := fun hr => h (List.mem_cons_of_mem _ hr)
    show splitOnBar (c :: (rest ++ '|' :: b)) = (c :: rest) :: splitOnBar b
    rw [splitOnBar, ih hr]
    cases hs : splitOnBar b with
    | nil => exact absurd hs (splitOnBar_ne_nil b)
    | cons x t => simp [hc]

theorem firstAuthorOf_no_bar (a : Article) : ('|' : Char) ∉ firstAuthorOf a := by
  unfold firstAuthorOf
  cases a.authors with
  | nil => simp
  | cons au rest => exact normalizeString_no_bar au

theorem compositeKey_parts (a : Article) (hy : ('|' : Char) ∉ yearOf a) :
    splitOnBar (compositeKey a) = [normTitle a, firstAuthorOf a, yearOf a] := by
  have hn : ('|' : Char) ∉ normTitle a := normalizeString_no_bar _
  rw [compositeKey]
  rw [splitOnBar_append hn, splitOnBar_append (firstAuthorOf_no_bar a),
    splitOnBar_no_bar hy]

theorem compositeKey_contains_bar (a : Article) :
    (compositeKey a).contains '|' = true := by
  have : ('|' : Char) ∈ compositeKey a := by
    rw [compositeKey]
    exact List.mem_append_right _ (List.mem_cons_self ..)
  simpa using this

/-- On a bar-free-year composite key, the fuzzy entry test reduces to the
author, year and similarity comparisons. -/
theorem entryMatches_compositeKey (a : Article) (nt fa y : Str)
    (hy : ('|' : Char) ∉ yearOf a) :
    entryMatches (compositeKey a) nt fa y =
      (decide (firstAuthorOf a = fa) && decide (yearOf a = y) &&
       decide (similarityThreshold <
         calculateSimilarity nt (normTitle a))) := by
  rw [entryMatches, compositeKey_contains_bar, compositeKey_parts a hy]
  simp

/-! ### Branch equations for the deduplication loop body -/

theorem dedupStep_doi_skip {st : DedupState} {a : Article}
    (h : usableDoi a = true) (h2 : st.doiMap.contains (normDoi a) = true) :
    dedupStep st a = st := by
  have h2m : normDoi a ∈ st.doiMap := by simpa using h2
  simp only [dedupStep]
  simp [h, h2m]

theorem dedupStep_doi_accept {st : DedupState} {a : Article}
    (h : usableDoi a = true) (h2 : st.doiMap.contains (normDoi a) = false) :
    dedupStep st a =
      ⟨normDoi a :: st.doiMap, mapSet st.uniqueMap a.pmid a⟩ := by
  have h2m : normDoi a ∉ st.doiMap := by simpa using h2
  simp only [dedupStep]
  simp [h, h2m]

theorem dedupStep_t2_exact {st : DedupState} {a : Article}
    (h : usableDoi a = false)
    (h2 : mapHas st.uniqueMap (compositeKey a) = true) :
    dedupStep st a = st := by
  simp only [dedupStep]
  simp [h, h2]

theorem dedupStep_t2_fuzzy {st : DedupState} {a : Article}
    (h : usableDoi a = false)
    (h2 : mapHas st.uniqueMap (compositeKey a) = false)
    (h3 : isDuplicateOf st.uniqueMap (normTitle a) (firstAuthorOf a)
      (yearOf a) = true) :
    dedupStep st a = st := by
  simp only [dedupStep]
  simp [h, h2, h3]

theorem dedupStep_t2_accept {st : DedupState} {a : Article}
    (h : usableDoi a = false)
    (h2 : mapHas st.uniqueMap (compositeKey a) = false)
    (h3 : isDuplicateOf st.uniqueMap (normTitle a) (firstAuthorOf a)
      (yearOf a) = false) :
    dedupStep st a =
      ⟨st.doiMap, mapSet st.uniqueMap (compositeKey a) a⟩ := by
  simp only [dedupStep]
  simp [h, h2, h3]

/-- The set of accepted normalized DOIs only grows. -/
theorem doiMap_mono {st : DedupState} (a : Article) {x : Str}
    (h : x ∈ st.doiMap) : x ∈ (dedupStep st a).doiMap := by
  by_cases h1 : usableDoi a = true
  · by_cases h2 : st.doiMap.contains (normDoi a) = true
    · rw [dedupStep_doi_skip h1 h2]
      exact h
    · rw [dedupStep_doi_accept h1 (Bool.eq_false_iff.mpr h2)]
      exact List.mem_cons_of_mem _ h
  · have h1' : usableDoi a = false := Bool.eq_false_iff.mpr h1
    by_cases h2 : mapHas st.uniqueMap (compositeKey a) = true
    · rw [dedupStep_t2_exact h1' h2]
      exact h
    · have h2' := Bool.eq_false_iff.mpr h2
      by_cases h3 : isDuplicateOf st.uniqueMap (normTitle a) (firstAuthorOf a)
        (yearOf a) = true
      · rw [dedupStep_t2_fuzzy h1' h2' h3]
        exact h
      · rw [dedupStep_t2_accept h1' h2' (Bool.eq_false_iff.mpr h3)]
        exact h

/-- A record with a usable DOI whose normalized DOI was already seen is
skipped. -/
theorem dedupStep_skip_of_doiMem {st : DedupState} {a : Article}
    (h : usableDoi a = true) (h2 : normDoi a ∈ st.doiMap) :
    dedupStep st a = st :=
  dedupStep_doi_skip h (by simpa using h2)

/-- After processing a record with a usable DOI its normalized DOI is in the
accepted set. -/
theorem normDoi_mem_after_step (st : DedupState) {a : Article}
    (h : usableDoi a = true) : normDoi a ∈ (dedupStep st a).doiMap := by
  by_cases h2 : st.doiMap.contains (normDoi a) = true
  · rw [dedupStep_doi_skip h h2]
    simpa using h2
  · rw [dedupStep_doi_accept h (by simpa using h2)]
    exact List.mem_cons_self ..

/-- Folding past a record whose normalized DOI is already accepted is the
same as not seeing that record at all. -/
theorem foldl_skip_dup_doi (l : List Article) (l3 : List Article)
    (st : DedupState) {r2 : Article} (h : usableDoi r2 = true)
    (hm : normDoi r2 ∈ st.doiMap) :
    List.foldl dedupStep st (l ++ r2 :: l3) =
      List.foldl dedupStep st (l ++ l3) := by
  induction l generalizing st with
  | nil =>
    show List.foldl dedupStep (dedupStep st r2) l3 = _
    rw [dedupStep_skip_of_doiMem h hm, List.nil_append]
  | cons a l ih =>
    show List.foldl dedupStep (dedupStep st a) (l ++ r2 :: l3) = _
    exact ih _ (doiMap_mono a hm)

/-! ### Two-record deduplication lemmas -/

theorem dedup_pair_eq (r1 r2 : Article) :
    deduplicateArticles [r1, r2] =
      (dedupStep (dedupStep ⟨[], []⟩ r1) r2).uniqueMap.map Prod.snd := rfl

theorem mapHas_nil (k : Str) : mapHas [] k = false := rfl

theorem isDuplicateOf_nil (nt fa y : Str) : isDuplicateOf [] nt fa y = false := rfl

theorem mapHas_singleton (k k2 : Str) (v : Article) :
    mapHas [(k, v)] k2 = (k == k2) := by
  simp [mapHas]

theorem isDuplicateOf_singleton (k : Str) (v : Article) (nt fa y : Str) :
    isDuplicateOf [(k, v)] nt fa y = entryMatches k nt fa y := by
  simp [isDuplicateOf]

theorem mapSet_nil (k : Str) (v : Article) : mapSet [] k v = [(k, v)] := rfl

theorem mapSet_singleton_ne (k k2 : Str) (v v2 : Article) (h : k ≠ k2) :
    mapSet [(k, v)] k2 v2 = [(k, v), (k2, v2)] := by
  rw [mapSet, mapHas_singleton]
  rw [if_neg (by simp [h])]
  rfl

/-- Convenience builder for concrete test records: the unnamed fields get the
extraction defaults. -/
def mkArticle (pmid title : String) (authors : List String)
    (doi year : Option String) : Article :=
  { pmid := pmid.data, title := title.data,
    authors := authors.map String.data,
    journal := "Unknown journal".data, pubDate := "Unknown date".data,
    abstract := "No abstract available".data,
    doi := doi.map String.data, year := year.map String.data }

/-! ### C7 — Levenshtein distance properties -/

/-- C7: the Levenshtein distance is symmetric (`distance(a,b) = distance(b,a)`),
it is zero exactly when the two strings are equal (non-negativity is inherent
in the `Nat` codomain), and `distance("kitten","sitting") = 3`. -/
theorem claim_C7_levenshtein :
    (∀ a b : Str, levenshteinDistance a b = levenshteinDistance b a) ∧
    (∀ a b : Str, levenshteinDistance a b = 0 ↔ a = b) ∧
    levenshteinDistance "kitten".data "sitting".data = 3 :=
  ⟨levenshteinDistance_comm, levenshteinDistance_eq_zero_iff, by decide⟩

theorem claim_C7_witness :
    levenshteinDistance "ab".data "ba".data =
      levenshteinDistance "ba".data "ab".data ∧
    (levenshteinDistance "ab".data "ab".data = 0 ↔ "ab".data = "ab".data) :=
  ⟨claim_C7_levenshtein.1 "ab".data "ba".data,
   claim_C7_levenshtein.2.1 "ab".data "ab".data⟩

/-! ### C6 — normalization character classes -/

/-- C6 as stated is false on the code: `normalizeString` keeps `\w`
characters, and `\w` includes the underscore, so the output can contain a
character that is neither a lower-case letter, nor a digit, nor a space. -/
theorem claim_C6_counterexample :
    ¬ (∀ c ∈ normalizeString "_".data,
        c.isLower = true ∨ c.isDigit = true ∨ c = ' ') := by
  decide

/-- C6 (amended): every character of a normalized string is a lower-case
ASCII letter, an ASCII digit, an underscore, or a space, and spaces are
single and internal: no leading space, no trailing space, no two adjacent
spaces. -/
theorem claim_C6_normalized_charclass (s : Str) :
    (∀ c ∈ normalizeString s,
      c.isLower = true ∨ c.isDigit = true ∨ c = '_' ∨ c = ' ') ∧
    (∀ c ∈ (normalizeString s).head?, ¬ c = ' ') ∧
    (∀ c ∈ (normalizeString s).getLast?, ¬ c = ' ') ∧
    (normalizeString s).Chain' (fun a b => a = ' ' → b ≠ ' ') := by
  refine ⟨?_, normalizeString_head s, normalizeString_getLast s,
    normalizeString_chain s⟩
  intro c hc
  rcases mem_normalizeString hc with h | h
  · simp only [goodChar, Bool.or_eq_true, decide_eq_true_eq] at h
    tauto
  · exact Or.inr (Or.inr (Or.inr h))

theorem claim_C6_witness :
    (∀ c ∈ normalizeString " A b_1,2  c. ".data,
      c.isLower = true ∨ c.isDigit = true ∨ c = '_' ∨ c = ' ') ∧
    (∀ c ∈ (normalizeString " A b_1,2  c. ".data).head?, ¬ c = ' ') ∧
    (∀ c ∈ (normalizeString " A b_1,2  c. ".data).getLast?, ¬ c = ' ') ∧
    (normalizeString " A b_1,2  c. ".data).Chain'
      (fun a b => a = ' ' → b ≠ ' ') :=
  claim_C6_normalized_charclass " A b_1,2  c. ".data

/-! ### C5 — the four-record end-to-end example -/

def exA1 : Article := mkArticle "1" "Study A" ["Unknown authors"]
  (some "10.1/X") none
def exA2 : Article := mkArticle "2" "Study A (dup)" ["Unknown authors"]
  (some "10.1/x") none
def exA3 : Article := mkArticle "3" "A Large Trial" ["Smith"] none
  (some "2020")
def exA4 : Article := mkArticle "4" "A Large Trial." ["Smith"] none
  (some "2020")

/-- C5: on the four-record example the deduplicator returns exactly the two
canonical records: the DOI pair merges by normalized DOI and the DOI-less
pair merges because the two titles normalize identically (their similarity
is 1 > 0.85). -/
theorem claim_C5_example :
    deduplicateArticles [exA1, exA2, exA3, exA4] = [exA1, exA3] ∧
    (deduplicateArticles [exA1, exA2, exA3, exA4]).length = 2 ∧
    normDoi exA1 = normDoi exA2 ∧
    (0.85 : ℚ) < calculateSimilarity (normTitle exA3) (normTitle exA4) := by
  refine ⟨by decide, by decide, by decide, ?_⟩
  rw [← similarityThreshold_eq]
  decide

/-! ### C2 — records with equal normalized DOI -/

def doiA : Article := mkArticle "7" "t one" ["X A"] (some "10.1/AAA") none
def doiB : Article := mkArticle "7" "t two" ["Y B"] (some "10.1/BBB") none
def doiC : Article := mkArticle "8" "t three" ["Z C"] (some "10.1/aaa") none

/-- C2 as stated is false on the code: in `[doiA, doiB, doiC]` the records
`doiA` and `doiC` have equal non-empty normalized DOIs, yet neither appears
in the output — `doiB`, which shares `doiA`'s pmid but has a different DOI,
overwrites `doiA`'s entry in the pmid-keyed map, and `doiC` is skipped as a
DOI duplicate.  So the pair does not collapse to exactly one retained
record, and the earliest-seen record is not retained. -/
theorem claim_C2_counterexample :
    usableDoi doiA = true ∧ usableDoi doiC = true ∧
    normDoi doiA = normDoi doiC ∧
    doiA ∉ deduplicateArticles [doiA, doiB, doiC] ∧
    doiC ∉ deduplicateArticles [doiA, doiB, doiC] := by
  decide

/-- C2 (amended): a later record whose normalized DOI equals that of an
earlier usable-DOI record is always skipped — deleting it does not change
the output — and on a two-record input the earliest record is the one
retained.  (The earliest-seen record can still be lost from the output when
a later DOI-bearing record shares its pmid and overwrites its map entry.) -/
theorem claim_C2_doi_merge (l1 l2 l3 : List Article) (r1 r2 : Article)
    (h1 : usableDoi r1 = true) (h2 : usableDoi r2 = true)
    (hd : normDoi r1 = normDoi r2) :
    deduplicateArticles (l1 ++ r1 :: (l2 ++ r2 :: l3)) =
      deduplicateArticles (l1 ++ r1 :: (l2 ++ l3)) ∧
    deduplicateArticles [r1, r2] = [r1] := by
  constructor
  · unfold deduplicateArticles
    rw [List.foldl_append, List.foldl_append, List.foldl_cons, List.foldl_cons]
    have hm : normDoi r2 ∈
        (dedupStep (List.foldl dedupStep ⟨[], []⟩ l1) r1).doiMap :=
      hd ▸ normDoi_mem_after_step _ h1
    rw [foldl_skip_dup_doi l2 l3 _ h2 hm]
  · rw [dedup_pair_eq]
    have hstep1 : dedupStep (⟨[], []⟩ : DedupState) r1 =
        ⟨[normDoi r1], [(r1.pmid, r1)]⟩ := by
      rw [@dedupStep_doi_accept ⟨[], []⟩ r1 h1 rfl]
      rfl
    rw [hstep1]
    rw [dedupStep_doi_skip h2 (by simp [hd])]
    rfl

def doiW1 : Article := mkArticle "21" "w one" ["A B"] (some "10.9/QQ") none
def doiW2 : Article := mkArticle "22" "w two" ["C D"] (some "10.9/qq") none

theorem claim_C2_witness :
    deduplicateArticles ([] ++ doiW1 :: ([] ++ doiW2 :: [])) =
      deduplicateArticles ([] ++ doiW1 :: ([] ++ [])) ∧
    deduplicateArticles [doiW1, doiW2] = [doiW1] :=
  claim_C2_doi_merge [] [] [] doiW1 doiW2 (by decide) (by decide) (by decide)

/-! ### C3 — records with distinct normalized DOIs -/

def ovA : Article := mkArticle "9" "same title" ["X A"] (some "10.1/AAA")
  (some "2020")
def ovB : Article := mkArticle "9" "same title" ["X A"] (some "10.1/BBB")
  (some "2020")

/-- C3 as stated is false on the code: `ovA` carries a usable DOI and there
is no earlier record at all, so by the claim it must appear in the output;
but the later record `ovB` — DOI-bearing with a different normalized DOI and
the same pmid — overwrites `ovA`'s entry, so the two are merged into one
output record and `ovA` is gone. -/
theorem claim_C3_counterexample :
    usableDoi ovA = true ∧ usableDoi ovB = true ∧
    normDoi ovA ≠ normDoi ovB ∧
    deduplicateArticles [ovA, ovB] = [ovB] := by
  decide

/-- C3 (amended): a usable-DOI record whose normalized DOI is new is always
accepted — Tier-2 title/author/year matching is never consulted for it — and
it appears in the output provided no later DOI-bearing record reuses its
pmid: on a two-record input with distinct normalized DOIs and distinct
pmids, both records survive whatever their titles, authors and years are. -/
theorem claim_C3_distinct_doi (r1 r2 : Article)
    (h1 : usableDoi r1 = true) (h2 : usableDoi r2 = true)
    (hd : normDoi r1 ≠ normDoi r2) (hp : r1.pmid ≠ r2.pmid) :
    deduplicateArticles [r1, r2] = [r1, r2] := by
  rw [dedup_pair_eq]
  have hstep1 : dedupStep (⟨[], []⟩ : DedupState) r1 =
      ⟨[normDoi r1], [(r1.pmid, r1)]⟩ := by
    rw [@dedupStep_doi_accept ⟨[], []⟩ r1 h1 rfl]
    rfl
  rw [hstep1]
  have hc : List.contains [normDoi r1] (normDoi r2) = false := by
    simp only [List.contains_cons, List.contains_nil, Bool.or_false,
      beq_eq_false_iff_ne, ne_eq]
    exact fun hh => hd hh.symm
  rw [dedupStep_doi_accept h2 hc]
  show (mapSet [(r1.pmid, r1)] r2.pmid r2).map Prod.snd = [r1, r2]
  rw [mapSet_singleton_ne _ _ _ _ hp]
  rfl

def ovW1 : Article := mkArticle "31" "same title" ["X A"] (some "10.2/X")
  (some "2020")
def ovW2 : Article := mkArticle "32" "same title" ["X A"] (some "10.2/Y")
  (some "2020")

theorem claim_C3_witness :
    deduplicateArticles [ovW1, ovW2] = [ovW1, ovW2] :=
  claim_C3_distinct_doi ovW1 ovW2 (by decide) (by decide) (by decide)
    (by decide)

/-! ### C1 — Tier-2 fuzzy matching of DOI-less records -/

def fuzA : Article := mkArticle "10" "aaaaaaa" ["Smith J"] none (some "2020")
def fuzB : Article := mkArticle "11" "baaaaaa" ["Smith J"] none (some "2020")
def fuzC : Article := mkArticle "12" "ccaaaaa" ["Smith J"] none (some "2020")

/-- C1 as stated is false on the code: in `[fuzA, fuzB, fuzC]` the pair
`(fuzB, fuzC)` is DOI-less with equal normalized first author and year,
title similarity 5/7 ≤ 0.85 and distinct composite keys, so by the claim
both must appear in the output; but `fuzB` was already consumed as a fuzzy
duplicate of `fuzA` (similarity 6/7 > 0.85) and is not in the output. -/
theorem claim_C1_counterexample :
    usableDoi fuzB = false ∧ usableDoi fuzC = false ∧
    firstAuthorOf fuzB = firstAuthorOf fuzC ∧ yearOf fuzB = yearOf fuzC ∧
    ¬ ((0.85 : ℚ) < calculateSimilarity (normTitle fuzB) (normTitle fuzC)) ∧
    compositeKey fuzB ≠ compositeKey fuzC ∧
    fuzB ∉ deduplicateArticles [fuzA, fuzB, fuzC] := by
  refine ⟨by decide, by decide, by decide, by decide, ?_, by decide, by decide⟩
  rw [← similarityThreshold_eq]
  decide

/-- C1 (amended): the claimed pair behaviour holds for the two records on
their own, i.e. when no third record interferes with the pair (a record can
be dropped as a fuzzy duplicate of an earlier record and hence be missing
even though its similarity to the other pair member is below the threshold).
For a two-record input of DOI-less records with the same normalized first
author and the same year (the year not containing `'|'`, as a 4-digit year
never does): similarity above 0.85 collapses the pair to the earlier record,
similarity at most 0.85 with distinct composite keys keeps both. -/
theorem claim_C1_pairwise_fuzzy (r1 r2 : Article)
    (h1 : usableDoi r1 = false) (h2 : usableDoi r2 = false)
    (hauth : firstAuthorOf r1 = firstAuthorOf r2)
    (hyear : yearOf r1 = yearOf r2)
    (hbar : ('|' : Char) ∉ yearOf r1) :
    ((0.85 : ℚ) < calculateSimilarity (normTitle r1) (normTitle r2) →
      deduplicateArticles [r1, r2] = [r1]) ∧
    (¬ ((0.85 : ℚ) < calculateSimilarity (normTitle r1) (normTitle r2)) →
      compositeKey r1 ≠ compositeKey r2 →
      deduplicateArticles [r1, r2] = [r1, r2]) := by
  have hstep1 : dedupStep (⟨[], []⟩ : DedupState) r1 =
      ⟨[], [(compositeKey r1, r1)]⟩ := by
    rw [@dedupStep_t2_accept ⟨[], []⟩ r1 h1 rfl rfl]
    rfl
  have hsim : entryMatches (compositeKey r1) (normTitle r2) (firstAuthorOf r2)
      (yearOf r2) = decide (similarityThreshold <
        calculateSimilarity (normTitle r2) (normTitle r1)) := by
    rw [entryMatches_compositeKey r1 _ _ _ hbar, hauth, hyear]
    simp
  constructor
  · intro hgt
    rw [dedup_pair_eq, hstep1]
    by_cases hk : compositeKey r1 = compositeKey r2
    · rw [dedupStep_t2_exact h2 (by rw [mapHas_singleton]; simp [hk])]
      rfl
    · have hfz : isDuplicateOf [(compositeKey r1, r1)] (normTitle r2)
          (firstAuthorOf r2) (yearOf r2) = true := by
        rw [isDuplicateOf_singleton, hsim, calculateSimilarity_comm,
          similarityThreshold_eq]
        simpa using hgt
      rw [dedupStep_t2_fuzzy h2 (by rw [mapHas_singleton]; simp [hk]) hfz]
      rfl
  · intro hle hk
    have hfz : isDuplicateOf [(compositeKey r1, r1)] (normTitle r2)
        (firstAuthorOf r2) (yearOf r2) = false := by
      rw [isDuplicateOf_singleton, hsim, calculateSimilarity_comm,
        similarityThreshold_eq]
      simpa using hle
    rw [dedup_pair_eq, hstep1,
      dedupStep_t2_accept h2 (by rw [mapHas_singleton]; simp [hk]) hfz]
    show (mapSet [(compositeKey r1, r1)] (compositeKey r2) r2).map Prod.snd =
      [r1, r2]
    rw [mapSet_singleton_ne _ _ _ _ hk]
    rfl

def fuzW1 : Article := mkArticle "41" "aaaaaaa" ["Smith J"] none (some "2020")
def fuzW2 : Article := mkArticle "42" "baaaaaa" ["Smith J"] none (some "2020")

theorem claim_C1_witness :
    deduplicateArticles [fuzW1, fuzW2] = [fuzW1] :=
  (claim_C1_pairwise_fuzzy fuzW1 fuzW2 (by decide) (by decide) (by decide)
      (by decide) (by decide)).1
    (by rw [← similarityThreshold_eq]; decide)

/-! ### C10 — the output is a sub-multiset of the input -/

theorem mapHas_iff_mem_keys {m : StrMap} {k : Str} :
    mapHas m k = true ↔ k ∈ m.map Prod.fst := by
  constructor
  · intro h
    rcases List.any_eq_true.mp h with ⟨p, hp, he⟩
    exact List.mem_map.mpr ⟨p, hp, by simpa using he⟩
  · intro h
    rcases List.mem_map.mp h with ⟨p, hp, he⟩
    exact List.any_eq_true.mpr ⟨p, hp, by simpa using he⟩

theorem mapHas_decomp {m : StrMap} {k : Str} (h : mapHas m k = true) :
    ∃ m1 old m2, m = m1 ++ (k, old) :: m2 ∧ mapHas m1 k = false := by
  induction m with
  | nil => simp [mapHas] at h
  | cons p m ih =>
    by_cases hp : p.1 = k
    · refine ⟨[], p.2, m, ?_, rfl⟩
      rw [← hp]
      rfl
    · have h' : mapHas m k = true := by
        rw [mapHas, List.any_cons] at h
        rcases Bool.or_eq_true _ _ ▸ h with h1 | h1
        · exact absurd (by simpa using h1) hp
        · exact h1
      obtain ⟨m1, old, m2, he, hm1⟩ := ih h'
      refine ⟨p :: m1, old, m2, ?_, ?_⟩
      · rw [he]
        rfl
      · rw [mapHas, List.any_cons]
        have hb : (p.1 == k) = false := by simpa using hp
        rw [hb, Bool.false_or]
        exact hm1

theorem map_id_of_has_false {m : StrMap} {k : Str} (v : Article)
    (h : mapHas m k = false) :
    m.map (fun p => if p.1 == k then (k, v) else p) = m := by
  induction m with
  | nil => rfl
  | cons p m ih =>
    rw [mapHas, List.any_cons] at h
    rcases Bool.or_eq_false_iff.mp h with ⟨h1, h2⟩
    rw [List.map_cons, if_neg (by rw [h1]; exact Bool.false_ne_true), ih h2]

theorem mapSet_overwrite {m1 m2 : StrMap} {k : Str} {old : Article}
    (v : Article) (h1 : mapHas m1 k = false) (h2 : mapHas m2 k = false) :
    mapSet (m1 ++ (k, old) :: m2) k v = m1 ++ (k, v) :: m2 := by
  have hh : mapHas (m1 ++ (k, old) :: m2) k = true := by
    rw [mapHas_iff_mem_keys, List.map_append]
    exact List.mem_append_right _
      (by rw [List.map_cons]; exact List.mem_cons_self ..)
  rw [mapSet, if_pos hh, List.map_append, List.map_cons]
  rw [map_id_of_has_false v h1, map_id_of_has_false v h2]
  simp

theorem mapSet_keys_of_has {m : StrMap} {k : Str} (v : Article)
    (h : mapHas m k = true) :
    (mapSet m k v).map Prod.fst = m.map Prod.fst := by
  rw [mapSet, if_pos h, List.map_map]
  apply List.map_congr_left
  intro p _
  show (if p.1 == k then (k, v) else p).1 = p.1
  by_cases hp : p.1 = k
  · rw [if_pos (by simpa using hp)]
    exact hp.symm
  · rw [if_neg (by simpa using hp)]

theorem mapSet_keys_of_not_has {m : StrMap} {k : Str} (v : Article)
    (h : mapHas m k = false) :
    (mapSet m k v).map Prod.fst = m.map Prod.fst ++ [k] := by
  rw [mapSet, if_neg (by rw [h]; exact Bool.false_ne_true), List.map_append]
  rfl

/-- The keys of the accepted map are pairwise distinct. -/
def KeysNodup (st : DedupState) : Prop :=
  (st.uniqueMap.map Prod.fst).Nodup

theorem keysNodup_mapSet {m : StrMap} {k : Str} (v : Article)
    (h : (m.map Prod.fst).Nodup) :
    ((mapSet m k v).map Prod.fst).Nodup := by
  by_cases hh : mapHas m k = true
  · rw [mapSet_keys_of_has v hh]
    exact h
  · rw [mapSet_keys_of_not_has v (Bool.eq_false_iff.mpr hh)]
    rw [List.nodup_append]
    refine ⟨h, List.nodup_singleton k, ?_⟩
    intro x hx
    simp only [List.mem_singleton]
    intro he
    subst he
    exact hh (mapHas_iff_mem_keys.mpr hx)

theorem keysNodup_step {st : DedupState} (hn : KeysNodup st) (a : Article) :
    KeysNodup (dedupStep st a) := by
  by_cases h1 : usableDoi a = true
  · by_cases h2 : st.doiMap.contains (normDoi a) = true
    · rw [dedupStep_doi_skip h1 h2]
      exact hn
    · rw [dedupStep_doi_accept h1 (Bool.eq_false_iff.mpr h2)]
      exact keysNodup_mapSet a hn
  · have h1' : usableDoi a = false := Bool.eq_false_iff.mpr h1
    by_cases h2 : mapHas st.uniqueMap (compositeKey a) = true
    · rw [dedupStep_t2_exact h1' h2]
      exact hn
    · have h2' := Bool.eq_false_iff.mpr h2
      by_cases h3 : isDuplicateOf st.uniqueMap (normTitle a) (firstAuthorOf a)
        (yearOf a) = true
      · rw [dedupStep_t2_fuzzy h1' h2' h3]
        exact hn
      · rw [dedupStep_t2_accept h1' h2' (Bool.eq_false_iff.mpr h3)]
        exact keysNodup_mapSet a hn

theorem mapSet_values_le {m : StrMap} {k : Str} (v : Article)
    (h : (m.map Prod.fst).Nodup) :
    ((mapSet m k v).map Prod.snd : Multiset Article) ≤
      (m.map Prod.snd : Multiset Article) + {v} := by
  by_cases hh : mapHas m k = true
  · obtain ⟨m1, old, m2, he, hm1⟩ := mapHas_decomp hh
    subst he
    have hm2 : mapHas m2 k = false := by
      rw [List.map_append, List.map_cons] at h
      rcases List.nodup_append.mp h with ⟨_, hmid, _⟩
      rcases List.nodup_cons.mp hmid with ⟨hk2, _⟩
      by_contra hc
      have : mapHas m2 k = true := by
        revert hc
        cases hm : mapHas m2 k <;> simp
      exact hk2 (mapHas_iff_mem_keys.mp this)
    rw [mapSet_overwrite v hm1 hm2]
    have e1 : (((m1 ++ (k, v) :: m2).map Prod.snd : List Article) :
        Multiset Article) =
        ((m1.map Prod.snd : List Article) : Multiset Article) +
          (v ::ₘ ((m2.map Prod.snd : List Article) : Multiset Article)) := by
      rw [List.map_append, List.map_cons]
      rfl
    have e2 : (((m1 ++ (k, old) :: m2).map Prod.snd : List Article) :
        Multiset Article) =
        ((m1.map Prod.snd : List Article) : Multiset Article) +
          (old ::ₘ ((m2.map Prod.snd : List Article) : Multiset Article)) := by
      rw [List.map_append, List.map_cons]
      rfl
    rw [e1, e2]
    have h3 : (v ::ₘ ((m2.map Prod.snd : List Article) : Multiset Article)) =
        ((m2.map Prod.snd : List Article) : Multiset Article) + {v} := by
      rw [← Multiset.singleton_add, add_comm]
    rw [h3, add_assoc]
    exact add_le_add_left (add_le_add_right (Multiset.le_cons_self _ _) _) _
  · rw [mapSet, if_neg (by rw [Bool.eq_false_iff.mpr hh]; exact Bool.false_ne_true)]
    rw [List.map_append]
    exact le_of_eq rfl

theorem dedup_step_values_le {st : DedupState} (a : Article)
    (hn : KeysNodup st) :
    ((dedupStep st a).uniqueMap.map Prod.snd : Multiset Article) ≤
      (st.uniqueMap.map Prod.snd : Multiset Article) + {a} := by
  by_cases h1 : usableDoi a = true
  · by_cases h2 : st.doiMap.contains (normDoi a) = true
    · rw [dedupStep_doi_skip h1 h2]
      exact le_add_right le_rfl
    · rw [dedupStep_doi_accept h1 (Bool.eq_false_iff.mpr h2)]
      exact mapSet_values_le a hn
  · have h1' : usableDoi a = false := Bool.eq_false_iff.mpr h1
    by_cases h2 : mapHas st.uniqueMap (compositeKey a) = true
    · rw [dedupStep_t2_exact h1' h2]
      exact le_add_right le_rfl
    · have h2' := Bool.eq_false_iff.mpr h2
      by_cases h3 : isDuplicateOf st.uniqueMap (normTitle a) (firstAuthorOf a)
        (yearOf a) = true
      · rw [dedupStep_t2_fuzzy h1' h2' h3]
        exact le_add_right le_rfl
      · rw [dedupStep_t2_accept h1' h2' (Bool.eq_false_iff.mpr h3)]
        exact mapSet_values_le a hn

theorem dedup_fold_values_le (xs : List Article) (st : DedupState)
    (hn : KeysNodup st) :
    ((List.foldl dedupStep st xs).uniqueMap.map Prod.snd : Multiset Article) ≤
      (st.uniqueMap.map Prod.snd : Multiset Article) + (xs : Multiset Article) := by
  induction xs generalizing st with
  | nil => simp
  | cons a xs ih =>
    rw [List.foldl_cons]
    calc ((List.foldl dedupStep (dedupStep st a) xs).uniqueMap.map Prod.snd :
        Multiset Article)
        ≤ ((dedupStep st a).uniqueMap.map Prod.snd : Multiset Article) +
          (xs : Multiset Article) := ih _ (keysNodup_step hn a)
      _ ≤ ((st.uniqueMap.map Prod.snd : Multiset Article) + {a}) +
          (xs : Multiset Article) :=
        add_le_add_right (dedup_step_values_le a hn) _
      _ = (st.uniqueMap.map Prod.snd : Multiset Article) +
          ((a :: xs : List Article) : Multiset Article) := by
        rw [← Multiset.cons_coe, ← Multiset.singleton_add, add_assoc]

theorem dedup_multiset_le (xs : List Article) :
    ((deduplicateArticles xs : List Article) : Multiset Article) ≤
      (xs : Multiset Article) := by
  have h := dedup_fold_values_le xs ⟨[], []⟩ (by simp [KeysNodup])
  simpa [deduplicateArticles] using h

/-- C10: deduplication never invents, duplicates, or mutates records — every
output record is one of the input records (all fields unchanged), the output
is at most as long as the input, and each record value occurs in the output
at most as often as in the input. -/
theorem claim_C10_output_subset (xs : List Article) :
    (∀ a ∈ deduplicateArticles xs, a ∈ xs) ∧
    (deduplicateArticles xs).length ≤ xs.length ∧
    (∀ a, (deduplicateArticles xs).count a ≤ xs.count a) := by
  have h := dedup_multiset_le xs
  refine ⟨?_, ?_, ?_⟩
  · intro a ha
    have : a ∈ ((deduplicateArticles xs : List Article) : Multiset Article) := by
      simpa using ha
    simpa using Multiset.mem_of_le h this
  · have := Multiset.card_le_card h
    simpa using this
  · intro a
    have := Multiset.le_iff_count.mp h a
    simpa using this

theorem claim_C10_witness :
    doiW1 ∈ [doiW1, doiW2] ∧
    (deduplicateArticles [doiW1, doiW2]).length ≤ [doiW1, doiW2].length ∧
    (deduplicateArticles [doiW1, doiW2]).count doiW1 ≤
      [doiW1, doiW2].count doiW1 :=
  ⟨(claim_C10_output_subset [doiW1, doiW2]).1 doiW1 (by decide),
   (claim_C10_output_subset [doiW1, doiW2]).2.1,
   (claim_C10_output_subset [doiW1, doiW2]).2.2 doiW1⟩

/-! ### C4 — idempotence of deduplication -/

/-- The key under which a record is stored when it is accepted: its pmid for
usable-DOI records, its composite key otherwise. -/
def dkey (a : Article) : Str :=
  if usableDoi a then a.pmid else compositeKey a

theorem dkey_of_usable {a : Article} (h : usableDoi a = true) :
    dkey a = a.pmid := by
  rw [dkey, if_pos h]

theorem dkey_of_not_usable {a : Article} (h : usableDoi a = false) :
    dkey a = compositeKey a := by
  rw [dkey, if_neg (by rw [h]; exact Bool.false_ne_true)]

/-- The relation between an earlier and a later record of a canonical
output: distinct stored keys, distinct normalized DOIs when both have one,
and no fuzzy match of the later (DOI-less) record against the earlier
record's key. -/
def CanonRel (v w : Article) : Prop :=
  dkey v ≠ dkey w ∧
  (usableDoi v = true → usableDoi w = true → normDoi v ≠ normDoi w) ∧
  (usableDoi w = false →
    entryMatches (dkey v) (normTitle w) (firstAuthorOf w) (yearOf w) = false)

/-- The corresponding relation between stored entries. -/
def EntryRel (p q : Str × Article) : Prop :=
  (usableDoi p.2 = true → usableDoi q.2 = true → normDoi p.2 ≠ normDoi q.2) ∧
  (usableDoi q.2 = false →
    entryMatches p.1 (normTitle q.2) (firstAuthorOf q.2) (yearOf q.2) = false)

/-- The invariant maintained by the deduplication loop. -/
structure GoodState (st : DedupState) : Prop where
  nodup : (st.uniqueMap.map Prod.fst).Nodup
  keyOk : ∀ p ∈ st.uniqueMap, p.1 = dkey p.2
  doiSub : ∀ p ∈ st.uniqueMap, usableDoi p.2 = true → normDoi p.2 ∈ st.doiMap
  pairRel : st.uniqueMap.Pairwise EntryRel

/-- The loop body either leaves the state unchanged (a skipped duplicate) or
accepts the record through one of the two `mapSet` writes. -/
theorem dedupStep_cases (st : DedupState) (a : Article) :
    dedupStep st a = st ∨
    (usableDoi a = true ∧ st.doiMap.contains (normDoi a) = false ∧
      dedupStep st a = ⟨normDoi a :: st.doiMap, mapSet st.uniqueMap a.pmid a⟩) ∨
    (usableDoi a = false ∧ mapHas st.uniqueMap (compositeKey a) = false ∧
      isDuplicateOf st.uniqueMap (normTitle a) (firstAuthorOf a) (yearOf a)
        = false ∧
      dedupStep st a = ⟨st.doiMap, mapSet st.uniqueMap (compositeKey a) a⟩) := by
  by_cases h1 : usableDoi a = true
  · by_cases h2 : st.doiMap.contains (normDoi a) = true
    · exact Or.inl (dedupStep_doi_skip h1 h2)
    · have h2' := Bool.eq_false_iff.mpr h2
      exact Or.inr (Or.inl ⟨h1, h2', dedupStep_doi_accept h1 h2'⟩)
  · have h1' : usableDoi a = false := Bool.eq_false_iff.mpr h1
    by_cases h2 : mapHas st.uniqueMap (compositeKey a) = true
    · exact Or.inl (dedupStep_t2_exact h1' h2)
    · have h2' := Bool.eq_false_iff.mpr h2
      by_cases h3 : isDuplicateOf st.uniqueMap (normTitle a) (firstAuthorOf a)
        (yearOf a) = true
      · exact Or.inl (dedupStep_t2_fuzzy h1' h2' h3)
      · have h3' := Bool.eq_false_iff.mpr h3
        exact Or.inr (Or.inr ⟨h1', h2', h3', dedupStep_t2_accept h1' h2' h3'⟩)

theorem pairwise_keys_ne {st : DedupState} (hn : GoodState st) :
    st.uniqueMap.Pairwise (fun p q => p.1 ≠ q.1) :=
  List.pairwise_map.mp hn.nodup

/-- Accepting a record through the DOI branch preserves the invariant. -/
theorem goodState_doi_accept {st : DedupState} {a : Article}
    (hg : GoodState st) (h1 : usableDoi a = true)
    (h2 : st.doiMap.contains (normDoi a) = false) :
    GoodState ⟨normDoi a :: st.doiMap, mapSet st.uniqueMap a.pmid a⟩ := by
  have hndmem : normDoi a ∉ st.doiMap := by simpa using h2
  have hrel : ∀ p ∈ st.uniqueMap, EntryRel p (a.pmid, a) := by
    intro p hp
    constructor
    · intro hpu _
      intro he
      exact hndmem (he ▸ hg.doiSub p hp hpu)
    · intro hwa
      rw [h1] at hwa
      exact absurd hwa (by decide)
  refine ⟨?_, ?_, ?_, ?_⟩
  · exact keysNodup_mapSet a hg.nodup
  · intro p hp
    by_cases hh : mapHas st.uniqueMap a.pmid = true
    · rw [mapSet, if_pos hh] at hp
      rcases List.mem_map.mp hp with ⟨q, hq, he⟩
      by_cases hqk : q.1 == a.pmid
      · rw [if_pos hqk] at he
        rw [← he]
        exact (dkey_of_usable h1).symm
      · rw [if_neg hqk] at he
        rw [← he]
        exact hg.keyOk q hq
    · rw [mapSet, if_neg (by rw [Bool.eq_false_iff.mpr hh]; exact Bool.false_ne_true)]
        at hp
      rcases List.mem_append.mp hp with hp1 | hp1
      · exact hg.keyOk p hp1
      · rcases List.mem_singleton.mp hp1 with rfl
        exact (dkey_of_usable h1).symm
  · intro p hp
    by_cases hh : mapHas st.uniqueMap a.pmid = true
    · rw [mapSet, if_pos hh] at hp
      rcases List.mem_map.mp hp with ⟨q, hq, he⟩
      by_cases hqk : q.1 == a.pmid
      · rw [if_pos hqk] at he
        rw [← he]
        intro _
        exact List.mem_cons_self ..
      · rw [if_neg hqk] at he
        rw [← he]
        intro hu
        exact List.mem_cons_of_mem _ (hg.doiSub q hq hu)
    · rw [mapSet, if_neg (by rw [Bool.eq_false_iff.mpr hh]; exact Bool.false_ne_true)]
        at hp
      rcases List.mem_append.mp hp with hp1 | hp1
      · intro hu
        exact List.mem_cons_of_mem _ (hg.doiSub p hp1 hu)
      · rcases List.mem_singleton.mp hp1 with rfl
        intro _
        exact List.mem_cons_self ..
  · by_cases hh : mapHas st.uniqueMap a.pmid = true
    · rw [mapSet, if_pos hh]
      refine List.pairwise_map.mpr ?_
      have hcomb := (pairwise_keys_ne hg).and hg.pairRel
      refine hcomb.imp_of_mem ?_
      intro p q hp hq hr
      rcases hr with ⟨hne, hrel0⟩
      by_cases hpk : p.1 == a.pmid
      · have hp1 : p.1 = a.pmid := by simpa using hpk
        have hqk : (q.1 == a.pmid) = false := by
          refine beq_eq_false_iff_ne.mpr ?_
          rw [← hp1]
          exact fun hqq => hne hqq.symm
        rw [if_pos hpk, if_neg (by rw [hqk]; exact Bool.false_ne_true)]
        constructor
        · intro _ hqu
          intro he
          refine hndmem ?_
          rw [he]
          exact hg.doiSub q hq hqu
        · intro hquf
          have h0 := hrel0.2 hquf
          rw [← hp1]
          exact h0
      · rw [if_neg hpk]
        by_cases hqk : q.1 == a.pmid
        · rw [if_pos hqk]
          constructor
          · intro hpu _
            intro he
            exact hndmem (he ▸ hg.doiSub p hp hpu)
          · intro hwa
            rw [h1] at hwa
            exact absurd hwa (by decide)
        · rw [if_neg hqk]
          exact hrel0
    · rw [mapSet, if_neg (by rw [Bool.eq_false_iff.mpr hh]; exact Bool.false_ne_true)]
      refine List.pairwise_append.mpr ⟨hg.pairRel, List.pairwise_singleton _ _, ?_⟩
      intro p hp q hq
      rcases List.mem_singleton.mp hq with rfl
      exact hrel p hp

/-- Accepting a record through the Tier-2 branch preserves the invariant. -/
theorem goodState_t2_accept {st : DedupState} {a : Article}
    (hg : GoodState st) (h1 : usableDoi a = false)
    (h2 : mapHas st.uniqueMap (compositeKey a) = false)
    (h3 : isDuplicateOf st.uniqueMap (normTitle a) (firstAuthorOf a)
      (yearOf a) = false) :
    GoodState ⟨st.doiMap, mapSet st.uniqueMap (compositeKey a) a⟩ := by
  have hset : mapSet st.uniqueMap (compositeKey a) a =
      st.uniqueMap ++ [(compositeKey a, a)] := by
    rw [mapSet, if_neg (by rw [h2]; exact Bool.false_ne_true)]
  have hrel : ∀ p ∈ st.uniqueMap, EntryRel p (compositeKey a, a) := by
    intro p hp
    constructor
    · intro _ hwa
      rw [h1] at hwa
      exact absurd hwa (by decide)
    · intro _
      have := List.any_eq_false.mp h3 p hp
      exact Bool.eq_false_iff.mpr this
  refine ⟨?_, ?_, ?_, ?_⟩
  · exact keysNodup_mapSet a hg.nodup
  · rw [hset]
    intro p hp
    rcases List.mem_append.mp hp with hp1 | hp1
    · exact hg.keyOk p hp1
    · rcases List.mem_singleton.mp hp1 with rfl
      exact (dkey_of_not_usable h1).symm
  · rw [hset]
    intro p hp
    rcases List.mem_append.mp hp with hp1 | hp1
    · exact hg.doiSub p hp1
    · rcases List.mem_singleton.mp hp1 with rfl
      intro hu
      rw [h1] at hu
      exact absurd hu Bool.false_ne_true
  · rw [hset]
    refine List.pairwise_append.mpr ⟨hg.pairRel, List.pairwise_singleton _ _, ?_⟩
    intro p hp q hq
    rcases List.mem_singleton.mp hq with rfl
    exact hrel p hp

theorem goodState_step {st : DedupState} (hg : GoodState st) (a : Article) :
    GoodState (dedupStep st a) := by
  rcases dedupStep_cases st a with he | ⟨h1, h2, he⟩ | ⟨h1, h2, h3, he⟩
  · rw [he]
    exact hg
  · rw [he]
    exact goodState_doi_accept hg h1 h2
  · rw [he]
    exact goodState_t2_accept hg h1 h2 h3

theorem goodState_init : GoodState ⟨[], []⟩ := by
  refine ⟨List.nodup_nil, ?_, ?_, List.Pairwise.nil⟩
  · intro p hp
    exact absurd hp (List.not_mem_nil p)
  · intro p hp
    exact absurd hp (List.not_mem_nil p)

theorem goodState_fold (xs : List Article) (st : DedupState)
    (hg : GoodState st) : GoodState (List.foldl dedupStep st xs) := by
  induction xs generalizing st with
  | nil => exact hg
  | cons a xs ih => exact ih _ (goodState_step hg a)

/-- Conditions under which the pending records are all accepted unchanged:
every pending record's key is absent from the map, no pending DOI-less
record fuzzy-matches a stored key, and no pending usable DOI was already
recorded. -/
def PendingFresh (st : DedupState) (L : List Article) : Prop :=
  (∀ w ∈ L, ∀ p ∈ st.uniqueMap, p.1 ≠ dkey w) ∧
  (∀ w ∈ L, usableDoi w = false → ∀ p ∈ st.uniqueMap,
    entryMatches p.1 (normTitle w) (firstAuthorOf w) (yearOf w) = false) ∧
  (∀ w ∈ L, usableDoi w = true → normDoi w ∉ st.doiMap)

/-- Replaying a list whose records are pairwise canonical and fresh for the
current state appends each record under its key, in order. -/
theorem canon_fold (L : List Article) (st : DedupState)
    (hC : L.Pairwise CanonRel) (hp : PendingFresh st L) :
    (List.foldl dedupStep st L).uniqueMap =
      st.uniqueMap ++ L.map (fun v => (dkey v, v)) := by
  induction L generalizing st with
  | nil => simp
  | cons a L ih =>
    rcases hp with ⟨hp1, hp2, hp3⟩
    rcases List.pairwise_cons.mp hC with ⟨hra, hC2⟩
    have hnotHas : mapHas st.uniqueMap (dkey a) = false := by
      refine Bool.eq_false_iff.mpr ?_
      intro hh
      rcases List.any_eq_true.mp hh with ⟨p, hpm, hpe⟩
      exact hp1 a (List.mem_cons_self ..) p hpm (by simpa using hpe)
    by_cases h1 : usableDoi a = true
    · have hc2 : st.doiMap.contains (normDoi a) = false := by
        refine Bool.eq_false_iff.mpr ?_
        intro hh
        exact hp3 a (List.mem_cons_self ..) h1 (by simpa using hh)
      rw [List.foldl_cons, dedupStep_doi_accept h1 hc2]
      have hnotHasP : mapHas st.uniqueMap a.pmid = false := by
        rw [← dkey_of_usable h1]
        exact hnotHas
      have hset : mapSet st.uniqueMap a.pmid a =
          st.uniqueMap ++ [(a.pmid, a)] := by
        rw [mapSet, if_neg (by rw [hnotHasP]; exact Bool.false_ne_true)]
      have hfresh : PendingFresh
          ⟨normDoi a :: st.doiMap, mapSet st.uniqueMap a.pmid a⟩ L := by
        refine ⟨?_, ?_, ?_⟩
        · intro w hw p hpm
          rw [hset] at hpm
          rcases List.mem_append.mp hpm with hm | hm
          · exact hp1 w (List.mem_cons_of_mem _ hw) p hm
          · rcases List.mem_singleton.mp hm with rfl
            rw [← dkey_of_usable h1]
            exact (hra w hw).1
        · intro w hw hwd p hpm
          rw [hset] at hpm
          rcases List.mem_append.mp hpm with hm | hm
          · exact hp2 w (List.mem_cons_of_mem _ hw) hwd p hm
          · rcases List.mem_singleton.mp hm with rfl
            show entryMatches a.pmid (normTitle w) (firstAuthorOf w)
              (yearOf w) = false
            rw [← dkey_of_usable h1]
            exact (hra w hw).2.2 hwd
        · intro w hw hwu
          intro hmem
          rcases List.mem_cons.mp hmem with hm | hm
          · exact (hra w hw).2.1 h1 hwu hm.symm
          · exact hp3 w (List.mem_cons_of_mem _ hw) hwu hm
      rw [ih _ hC2 hfresh]
      show (mapSet st.uniqueMap a.pmid a) ++ _ = _
      rw [hset, List.map_cons, List.append_assoc]
      rw [dkey_of_usable h1]
      rfl
    · have h1' : usableDoi a = false := Bool.eq_false_iff.mpr h1
      have hnotHasK : mapHas st.uniqueMap (compositeKey a) = false := by
        rw [← dkey_of_not_usable h1']
        exact hnotHas
      have hdup : isDuplicateOf st.uniqueMap (normTitle a) (firstAuthorOf a)
          (yearOf a) = false := by
        refine List.any_eq_false.mpr ?_
        intro p hpm
        rw [hp2 a (List.mem_cons_self ..) h1' p hpm]
        exact Bool.false_ne_true
      rw [List.foldl_cons, dedupStep_t2_accept h1' hnotHasK hdup]
      have hset : mapSet st.uniqueMap (compositeKey a) a =
          st.uniqueMap ++ [(compositeKey a, a)] := by
        rw [mapSet, if_neg (by rw [hnotHasK]; exact Bool.false_ne_true)]
      have hfresh : PendingFresh
          ⟨st.doiMap, mapSet st.uniqueMap (compositeKey a) a⟩ L := by
        refine ⟨?_, ?_, ?_⟩
        · intro w hw p hpm
          rw [hset] at hpm
          rcases List.mem_append.mp hpm with hm | hm
          · exact hp1 w (List.mem_cons_of_mem _ hw) p hm
          · rcases List.mem_singleton.mp hm with rfl
            rw [← dkey_of_not_usable h1']
            exact (hra w hw).1
        · intro w hw hwd p hpm
          rw [hset] at hpm
          rcases List.mem_append.mp hpm with hm | hm
          · exact hp2 w (List.mem_cons_of_mem _ hw) hwd p hm
          · rcases List.mem_singleton.mp hm with rfl
            show entryMatches (compositeKey a) (normTitle w) (firstAuthorOf w)
              (yearOf w) = false
            rw [← dkey_of_not_usable h1']
            exact (hra w hw).2.2 hwd
        · intro w hw hwu
          exact hp3 w (List.mem_cons_of_mem _ hw) hwu
      rw [ih _ hC2 hfresh]
      show (mapSet st.uniqueMap (compositeKey a) a) ++ _ = _
      rw [hset, List.map_cons, List.append_assoc]
      rw [dkey_of_not_usable h1']
      rfl

/-- A pairwise-canonical list passes through deduplication unchanged. -/
theorem canon_dedup_id (L : List Article) (hC : L.Pairwise CanonRel) :
    deduplicateArticles L = L := by
  unfold deduplicateArticles
  rw [canon_fold L ⟨[], []⟩ hC
    ⟨fun w _ p hpm => absurd hpm (List.not_mem_nil p),
     fun w _ _ p hpm => absurd hpm (List.not_mem_nil p),
     fun w _ _ hm => absurd hm (List.not_mem_nil _)⟩]
  simp only [List.nil_append, List.map_map]
  have : (Prod.snd ∘ fun v : Article => (dkey v, v)) = id := rfl
  rw [this, List.map_id]

/-- The output of deduplication is pairwise canonical. -/
theorem canon_dedup (xs : List Article) :
    (deduplicateArticles xs).Pairwise CanonRel := by
  have hg := goodState_fold xs ⟨[], []⟩ goodState_init
  show ((List.foldl dedupStep ⟨[], []⟩ xs).uniqueMap.map Prod.snd).Pairwise
    CanonRel
  refine List.pairwise_map.mpr ?_
  refine ((pairwise_keys_ne hg).and hg.pairRel).imp_of_mem ?_
  intro p q hpm hqm hr
  rcases hr with ⟨hne, hr1, hr2⟩
  refine ⟨?_, hr1, ?_⟩
  · rw [← hg.keyOk p hpm, ← hg.keyOk q hqm]
    exact hne
  · intro hw
    rw [← hg.keyOk p hpm]
    exact hr2 hw

/-- C4: `deduplicate` is idempotent — applying it to its own output returns
that output unchanged (even as a list, hence also as a multiset of
identifier fields). -/
theorem claim_C4_idempotent (xs : List Article) :
    deduplicateArticles (deduplicateArticles xs) = deduplicateArticles xs :=
  canon_dedup_id _ (canon_dedup xs)

/-! ### The record extractor (`parseArticles`, source lines 64-132)

The regex patterns of the source use only literal text, `[^>]*`, and the
lazy quantifiers `(.*?)` / `[\s\S]*?`, all with the `i` flag.  They are
modelled by explicit scanning functions: `scanFirst` realises the engine's
leftmost-match rule (try the continuation at every start position), and the
lazy quantifiers become shortest-match captures.  Matched slices keep the
original text. -/

/-- Case-insensitive character comparison (all pattern literals are
ASCII). -/
def eqCI (a b : Char) : Bool := a.toLower == b.toLower

/-- `pat` is a case-insensitive prefix of `text`. -/
def isPrefixCI : Str → Str → Bool
  | [], _ => true
  | _ :: _, [] => false
  | p :: ps, t :: ts => eqCI p t && isPrefixCI ps ts

/-- Split `text` around the first case-insensitive occurrence of `pat`:
returns the part before the match and the part after it. -/
def splitFirstCI (pat : Str) : Str → Option (Str × Str)
  | [] => if isPrefixCI pat [] then some ([], []) else none
  | c :: rest =>
    if isPrefixCI pat (c :: rest) then some ([], (c :: rest).drop pat.length)
    else
      match splitFirstCI pat rest with
      | none => none
      | some (pre, post) => some (c :: pre, post)

/-- Try the rest of the pattern at every start position; the first success
wins (the engine's leftmost-match rule). -/
def scanFirst {α : Type} (f : Str → Option α) : Str → Option α
  | [] => f []
  | c :: rest =>
    match f (c :: rest) with
    | some r => some r
    | none => scanFirst f rest

/-- A character the JS `.` (without dotall) does not match. -/
def isLineTerm (c : Char) : Bool :=
  c = '\n' || c = '\r' || c = '\u2028' || c = '\u2029'

/-- Lazy `(.*?)` capture up to the first case-insensitive occurrence of
`close`; fails when a line terminator or the end of the input comes first.
Returns the capture and the text after the closing literal. -/
def lazyDotCaptureRest (close : Str) : Str → Option (Str × Str)
  | [] => if isPrefixCI close [] then some ([], []) else none
  | c :: rest =>
    if isPrefixCI close (c :: rest) then some ([], (c :: rest).drop close.length)
    else if isLineTerm c then none
    else (lazyDotCaptureRest close rest).map (fun pr => (c :: pr.1, pr.2))

/-- `/tagStart[^>]*>/` at the current position: the literal, then greedily
everything except `>`, then `>`.  Returns the text after the `>`. -/
def matchOpenAttrs (tagStart : Str) (text : Str) : Option Str :=
  if isPrefixCI tagStart text then
    match (text.drop tagStart.length).dropWhile (fun c => c != '>') with
    | '>' :: rest => some rest
    | _ => none
  else none

/-- `/opening(.*?)closing/i` (no dotall): first match anywhere in the
text. -/
def captureNoNlCI (opening closing : Str) : Str → Option Str :=
  scanFirst (fun t =>
    if isPrefixCI opening t then
      (lazyDotCaptureRest closing (t.drop opening.length)).map Prod.fst
    else none)

/-- `/tagStart[^>]*>(.*?)closing/i` (no dotall). -/
def captureAttrsNoNlCI (tagStart closing : Str) : Str → Option Str :=
  scanFirst (fun t =>
    match matchOpenAttrs tagStart t with
    | none => none
    | some rest => (lazyDotCaptureRest closing rest).map Prod.fst)

/-- `/opening([\s\S]*?)closing/i`: since `[\s\S]` matches everything, the
first match starts at the first occurrence of `opening` that has a later
`closing`, and that is the first occurrence of `opening` overall whenever a
match exists at all. -/
def captureBetweenCI (opening closing : Str) (text : Str) : Option Str :=
  match splitFirstCI opening text with
  | none => none
  | some (_, afterOpen) =>
    match splitFirstCI closing afterOpen with
    | none => none
    | some (mid, _) => some mid

/-- `/tagStart[^>]*>([\s\S]*?)closing/i`. -/
def captureAttrsDotallCI (tagStart closing : Str) : Str → Option Str :=
  scanFirst (fun t =>
    match matchOpenAttrs tagStart t with
    | none => none
    | some afterOpen =>
      match splitFirstCI closing afterOpen with
      | none => none
      | some (mid, _) => some mid)

/-- `/<PubDate>[\s\S]*?inner(.*?)innerClose/i`: the year and month patterns
of source lines 105-106. -/
def capturePubDateTag (inner innerClose : Str) : Str → Option Str :=
  scanFirst (fun t =>
    if isPrefixCI "<PubDate>".data t then
      captureNoNlCI inner innerClose (t.drop "<PubDate>".data.length)
    else none)

/-- `.replace(/<[^>]*>/g, '')` (used on title and abstract text): delete
every `<`-to-first-`>` span; a `<` with no later `>` stays. -/
def stripTagsAux : Nat → Str → Str
  | 0, t => t
  | fuel + 1, text =>
    match text with
    | [] => []
    | c :: rest =>
      if c = '<' then
        match rest.dropWhile (fun x => x != '>') with
        | '>' :: rest2 => stripTagsAux fuel rest2
        | _ => c :: rest
      else c :: stripTagsAux fuel rest

def stripTags (t : Str) : Str := stripTagsAux t.length t

/-- One author sub-match (source line 95): `<Author[^>]*>`, lazily to
`<LastName>`, its capture, lazily to `<ForeName>`, its capture, lazily to
`</Author>`.  Returns the two captures and the text after the match. -/
def matchAuthorAt (t : Str) : Option ((Str × Str) × Str) :=
  match matchOpenAttrs "<Author".data t with
  | none => none
  | some rest1 =>
    scanFirst (fun t2 =>
      if isPrefixCI "<LastName>".data t2 then
        match lazyDotCaptureRest "</LastName>".data
          (t2.drop "<LastName>".data.length) with
        | none => none
        | some (ln, rest3) =>
          scanFirst (fun t4 =>
            if isPrefixCI "<ForeName>".data t4 then
              match lazyDotCaptureRest "</ForeName>".data
                (t4.drop "<ForeName>".data.length) with
              | none => none
              | some (fn, rest5) =>
                match splitFirstCI "</Author>".data rest5 with
                | none => none
                | some (_, rest6) => some ((ln, fn), rest6)
            else none) rest3
      else none) rest1

/-- `matchAll` of the author pattern: successive matches, each search
resuming after the previous match. -/
def matchAuthorsAux : Nat → Str → List (Str × Str)
  | 0, _ => []
  | fuel + 1, text =>
    match scanFirst matchAuthorAt text with
    | none => []
    | some (pr, rest) => pr :: matchAuthorsAux fuel rest

def matchAuthors (text : Str) : List (Str × Str) :=
  matchAuthorsAux text.length text

/-- The article-block pattern `/<PubmedArticle>[\s\S]*?<\/PubmedArticle>/gi`
(source line 68): repeatedly take the earliest opening tag and the earliest
closing tag after it; the emitted block is the original slice. -/
def extractBlocksAux (fuel : Nat) (text : Str) : List Str :=
  match fuel with
  | 0 => []
  | fuel + 1 =>
    match splitFirstCI "<PubmedArticle>".data text with
    | none => []
    | some (pre, afterOpen) =>
      match splitFirstCI "</PubmedArticle>".data afterOpen with
      | none => []
      | some (mid, afterClose) =>
        ((text.drop pre.length).take ("<PubmedArticle>".data.length +
            mid.length + "</PubmedArticle>".data.length)) ::
          extractBlocksAux fuel afterClose

def extractBlocks (text : Str) : List Str :=
  extractBlocksAux text.length text

/-- The record fields built from one block once its PMID is known
(source lines 85-125). -/
def recordOfBlock (articleXml : Str) (pmid : Str) : Article :=
  let title := match captureBetweenCI "<ArticleTitle>".data
      "</ArticleTitle>".data articleXml with
    | some t => stripTags t
    | none => "No title available".data
  let abstractText := match captureAttrsDotallCI "<AbstractText".data
      "</AbstractText>".data articleXml with
    | some t => stripTags t
    | none => "No abstract available".data
  let authors := (matchAuthors articleXml).map (fun pr => pr.2 ++ ' ' :: pr.1)
  let journal := match captureNoNlCI "<Title>".data "</Title>".data
      articleXml with
    | some t => t
    | none => "Unknown journal".data
  let yearOpt := capturePubDateTag "<Year>".data "</Year>".data articleXml
  let monthOpt := capturePubDateTag "<Month>".data "</Month>".data articleXml
  let pubDate := match yearOpt with
    | some y =>
      (match monthOpt with
       | some m => m ++ ' ' :: y
       | none => y)
    | none => "Unknown date".data
  let doiOpt := captureNoNlCI "<ArticleId IdType=\"doi\">".data
    "</ArticleId>".data articleXml
  { pmid := pmid, title := title,
    authors := if authors.length > 0 then authors
      else ["Unknown authors".data],
    journal := journal, pubDate := pubDate,
    abstract := abstractText.take 500,
    doi := doiOpt, year := yearOpt }

/-- One block's extraction (the loop body, source lines 74-128): `null` when
the PMID is missing or captured empty (JS `!pmid`). -/
def parseBlock (articleXml : Str) : Option Article :=
  match captureAttrsNoNlCI "<PMID".data "</PMID>".data articleXml with
  | none => none
  | some pmid =>
    if pmid = [] then none
    else some (recordOfBlock articleXml pmid)

/-- `parseArticles` (source lines 64-132): one record per block whose fields
parse; a failing block contributes nothing and aborts nothing. -/
def parseArticles (xmlText : Str) : List Article :=
  (extractBlocks xmlText).filterMap parseBlock

/-- The block carries a non-empty PMID. -/
def hasUsablePmid (block : Str) : Bool :=
  match captureAttrsNoNlCI "<PMID".data "</PMID>".data block with
  | none => false
  | some p => p != []

/-- The record a valid block yields. -/
def blockRecord (b : Str) : Article :=
  recordOfBlock b ((captureAttrsNoNlCI "<PMID".data "</PMID>".data b).getD [])

theorem parseBlock_eq (b : Str) :
    parseBlock b = if hasUsablePmid b then some (blockRecord b) else none := by
  rw [parseBlock, hasUsablePmid, blockRecord]
  cases hcap : captureAttrsNoNlCI "<PMID".data "</PMID>".data b with
  | none => rfl
  | some p =>
    by_cases hp : p = []
    · subst hp
      rfl
    · simp [hp]

theorem filterMap_if_eq_filter_map {α β : Type} (p : α → Bool) (f : α → β)
    (g : α → Option β) (hg : ∀ a, g a = if p a then some (f a) else none)
    (l : List α) : l.filterMap g = (l.filter p).map f := by
  induction l with
  | nil => rfl
  | cons a l ih =>
    rw [List.filterMap_cons, List.filter_cons, hg a]
    by_cases hp : p a = true
    · rw [if_pos hp, if_pos hp, List.map_cons, ih]
    · rw [if_neg hp, if_neg hp, ih]

/-- C8: extraction yields exactly one record per block carrying a non-empty
PMID, in block order, and a markup string with zero valid blocks yields the
empty sequence (the function is total — there is no error case). -/
theorem claim_C8_one_record_per_valid_block (s : Str) :
    parseArticles s =
      ((extractBlocks s).filter hasUsablePmid).map blockRecord ∧
    ((extractBlocks s).filter hasUsablePmid = [] → parseArticles s = []) := by
  have h := filterMap_if_eq_filter_map hasUsablePmid blockRecord parseBlock
    parseBlock_eq (extractBlocks s)
  refine ⟨h, fun h0 => ?_⟩
  show (extractBlocks s).filterMap parseBlock = []
  rw [h, h0]
  rfl

theorem claim_C8_witness :
    (extractBlocks "<PubmedArticle><PMID></PMID></PubmedArticle>".data).filter
      hasUsablePmid = [] ∧
    parseArticles "<PubmedArticle><PMID></PMID></PubmedArticle>".data = [] :=
  ⟨by decide, (claim_C8_one_record_per_valid_block _).2 (by decide)⟩

theorem length_filter_add_length_filter_not (l : List Str) (p : Str → Bool) :
    (l.filter p).length + (l.filter (fun b => !(p b))).length = l.length := by
  induction l with
  | nil => rfl
  | cons a l ih =>
    rw [List.filter_cons, List.filter_cons]
    by_cases hp : p a = true
    · rw [if_pos hp, if_neg (by rw [hp]; decide)]
      simp only [List.length_cons]
      omega
    · rw [if_neg hp, if_pos (by rw [Bool.eq_false_iff.mpr hp]; decide)]
      simp only [List.length_cons]
      omega

/-- C9: a malformed block (one without a usable PMID — the only per-block
failure the pure model can exhibit; in the source any per-block throw is
likewise caught and the block dropped) is skipped without aborting the
batch: with exactly one malformed block among N, extraction yields N−1
records, and no failure propagates (the function is total). -/
theorem claim_C9_malformed_block_skipped (s : Str)
    (h : ((extractBlocks s).filter (fun b => !(hasUsablePmid b))).length = 1) :
    (parseArticles s).length = (extractBlocks s).length - 1 := by
  have hsplit := length_filter_add_length_filter_not (extractBlocks s)
    hasUsablePmid
  have hmain := filterMap_if_eq_filter_map hasUsablePmid blockRecord parseBlock
    parseBlock_eq (extractBlocks s)
  rw [parseArticles, hmain, List.length_map]
  omega

def xmlTwoBlocks : Str :=
  ("<PubmedArticle><PMID>1</PMID></PubmedArticle>" ++
   "<PubmedArticle>x</PubmedArticle>").data

theorem claim_C9_witness :
    ((extractBlocks xmlTwoBlocks).filter
      (fun b => !(hasUsablePmid b))).length = 1 ∧
    (parseArticles xmlTwoBlocks).length = (extractBlocks xmlTwoBlocks).length - 1 :=
  ⟨by decide, claim_C9_malformed_block_skipped _ (by decide)⟩

end ResearchHub
